import Mathlib

/-!
Shallow embedding of `collect_stats.py` (ecosystem-clone-statistics).

The script fetches GitHub clone-traffic data, persists one JSON snapshot per
repository per UTC day under `repos/<owner_repo>/runs/YYYY-MM-DD.json`, and
recomputes per-repository and global summaries from the files on disk.

Modelling conventions:
* JSON dictionaries read by the script are modelled as structures whose fields
  are `Option Nat` when the script accesses them with a default
  (`run_data.get('count', 0)`), so an absent key is `none`.
* A file that fails to parse (`json.JSONDecodeError`) is modelled as having
  content `none`.
* The filesystem directory of run files is modelled as a `List RunFile`; an
  absent `runs/` directory is the empty list (the script skips the loop in
  both cases and proceeds with empty accumulators).
* `sorted(runs_dir.glob("*.json"))` sorts `Path` objects, which compare by
  their full path string; since every file sits in the same directory and
  ends in `.json`, this is string order on `stem ++ ".json"`.  Python's
  `sorted` is a stable sort, modelled by `List.insertionSort` (stable).
* Wall-clock timestamps (`last_updated`, `collected_at`) are not part of the
  model: summaries are modelled up to those fields.
-/

namespace CloneStats

/-- Fields of a run snapshot JSON that `update_repo_summary` reads.  The
script accesses them as `run_data.get('count', 0)` / `run_data.get('uniques', 0)`,
so each field may be absent (`none`). -/
structure RunData where
  count : Option Nat
  uniques : Option Nat
deriving DecidableEq, Repr

/-- One file `<stem>.json` in a repository's `runs/` directory.  `data = none`
models a file whose content fails to parse as JSON. -/
structure RunFile where
  stem : String
  data : Option RunData
deriving DecidableEq, Repr

/-- The on-disk file name of a run file; `sorted(runs_dir.glob("*.json"))`
orders the files by this string. -/
def pathKey (rf : RunFile) : String :=
  rf.stem ++ ".json"

/-- The ordering used by `sorted(runs_dir.glob("*.json"))`. -/
def runLE (a b : RunFile) : Prop :=
  pathKey a ≤ pathKey b

instance : DecidableRel runLE :=
  fun a b => inferInstanceAs (Decidable (pathKey a ≤ pathKey b))

instance : IsTotal RunFile runLE :=
  ⟨fun a b => le_total (pathKey a) (pathKey b)⟩

instance : IsTrans RunFile runLE :=
  ⟨fun _ _ _ h1 h2 => le_trans h1 h2⟩

instance : IsRefl RunFile runLE :=
  ⟨fun a => le_refl (pathKey a)⟩

/-- One element of the `daily_history` list built by `update_repo_summary`. -/
structure DayEntry where
  date : String
  clones : Nat
  unique_cloners : Nat
deriving DecidableEq, Repr

/-- The summary JSON written by `update_repo_summary` (minus the wall-clock
`last_updated` field, which is outside the model). -/
structure RepoSummary where
  repo_name : String
  total_days_tracked : Nat
  total_clones : Nat
  max_unique_cloners_in_window : Nat
  first_tracked : Option String
  last_tracked : Option String
  daily_history : List DayEntry
deriving DecidableEq, Repr

/-- The `daily_history` record appended for one run file, or `none` for a file
that fails to parse (the `except json.JSONDecodeError` branch only logs). -/
def runEntry (rf : RunFile) : Option DayEntry :=
  match rf.data with
  | some d => some { date := rf.stem, clones := d.count.getD 0, unique_cloners := d.uniques.getD 0 }
  | none => none

/-- The `all_runs` list accumulated by `update_repo_summary`: run files in
ascending filename order, parse failures skipped. -/
def all_runs (files : List RunFile) : List DayEntry :=
  (List.insertionSort runLE files).filterMap runEntry

/-- `update_repo_summary` from `collect_stats.py`.  `total_clones` accumulates
`run_data.get('count', 0)` over the parsed files, which equals the sum of the
`clones` fields of `all_runs`; `max(unique_cloners_set) if unique_cloners_set
else 0` equals the fold of `max` with base `0` over the `unique_cloners`
values (inserting into a Python set drops duplicates and order, neither of
which affects the maximum of natural numbers, and the empty set gives `0`). -/
def update_repo_summary (repo_name : String) (files : List RunFile) : RepoSummary :=
  let runs := all_runs files
  { repo_name := repo_name
    total_days_tracked := runs.length
    total_clones := (runs.map (fun e => e.clones)).sum
    max_unique_cloners_in_window := (runs.map (fun e => e.unique_cloners)).foldr max 0
    first_tracked := runs.head?.map (fun e => e.date)
    last_tracked := runs.getLast?.map (fun e => e.date)
    daily_history := runs }

/-- A repository `summary.json` as read back by `update_global_summary`:
only `total_clones` is accessed (with default `0`); `repo_name` stands for
the rest of the dictionary's content and gives entries an identity. -/
structure SummaryFile where
  repo_name : String
  total_clones : Option Nat
deriving DecidableEq, Repr

/-- The sort key `lambda x: x.get('total_clones', 0)`. -/
def gKey (s : SummaryFile) : Nat :=
  s.total_clones.getD 0

/-- `a` comes before `b` in `sorted(..., key=..., reverse=True)`: descending
by key, earlier element kept first on ties (Python's sort is stable). -/
def gBefore (a b : SummaryFile) : Prop :=
  gKey b ≤ gKey a

instance : DecidableRel gBefore :=
  fun a b => inferInstanceAs (Decidable (gKey b ≤ gKey a))

instance : IsTotal SummaryFile gBefore :=
  ⟨fun a b => le_total (gKey b) (gKey a)⟩

instance : IsTrans SummaryFile gBefore :=
  ⟨fun _ _ _ h1 h2 => le_trans h2 h1⟩

/-- The global summary written by `update_global_summary` (minus the
wall-clock `last_updated` field). -/
structure GlobalSummary where
  total_repos_tracked : Nat
  total_clones_all_repos : Nat
  repositories : List SummaryFile
deriving DecidableEq, Repr

/-- `update_global_summary` from `collect_stats.py`.  Input: for each
subdirectory of `repos/`, the parsing outcome of its `summary.json`
(`none` when the file is missing or unreadable, the `except: continue`
branch).  The loop appends each parsed summary, adds
`summary.get('total_clones', 0)` to the running total and counts it, which
equals `filterMap` / `sum` / `length` over the parsed list. -/
def update_global_summary (dirs : List (Option SummaryFile)) : GlobalSummary :=
  let all_repo_summaries := dirs.filterMap id
  { total_repos_tracked := all_repo_summaries.length
    total_clones_all_repos := (all_repo_summaries.map gKey).sum
    repositories := List.insertionSort gBefore all_repo_summaries }

/-- One entry of the `clones` series returned by `repo.get_clones_traffic()`. -/
structure CloneEntry where
  timestamp : String
  count : Nat
  uniques : Nat
deriving DecidableEq, Repr

/-- The dictionary returned by `fetch_clone_traffic` on success. -/
structure CloneData where
  timestamp : String
  count : Nat
  uniques : Nat
deriving DecidableEq, Repr

/-- Outcome of the API interaction inside `fetch_clone_traffic`'s `try` block:
a response whose `clones` series is `clones` (an absent `clones` key behaves
like the empty list under `if traffic.get('clones'):`), a raised
`GithubException` with the given status (403, 404, or any other), or any
other raised exception. -/
inductive ApiOutcome where
  | ok (clones : List CloneEntry)
  | githubError (status : Nat)
  | otherError
deriving DecidableEq, Repr

/-- `fetch_clone_traffic` from `collect_stats.py`: on a response with a
non-empty `clones` list, return the last entry (`traffic['clones'][-1]`) as
`{timestamp, count, uniques}`; on an empty (or absent) series return `None`;
every caught exception also returns `None`. -/
def fetch_clone_traffic : ApiOutcome → Option CloneData
  | .ok clones =>
    match clones.getLast? with
    | some latest => some { timestamp := latest.timestamp, count := latest.count, uniques := latest.uniques }
    | none => none
  | .githubError _ => none
  | .otherError => none

/-- Python `a or b` on two `os.environ.get` results: the first operand is
taken when it is truthy (present and non-empty), otherwise the second. -/
def pyOrStr (a b : Option String) : Option String :=
  match a with
  | some s => if s = "" then b else some s
  | none => b

/-- `get_github_token` from `collect_stats.py`, as a function of the values of
the two environment variables (`none` = unset).  `token = os.environ.get('TRAFFIC_TRACKER')
or os.environ.get('GITHUB_TOKEN')`; `if not token: sys.exit(1)` exits with
code 1 when the result is `None` or the empty string; otherwise the token is
returned. -/
def get_github_token (traffic_tracker github_token : Option String) : Except Nat String :=
  match pyOrStr traffic_tracker github_token with
  | some token => if token = "" then .error 1 else .ok token
  | none => .error 1

/-- `get_today_filename`: the date part (`now.strftime('%Y-%m-%d')`) is passed
in as `today`; the wall clock itself is outside the model. -/
def get_today_filename (today : String) : String :=
  today ++ ".json"

/-- `check_if_already_ran_today` from `collect_stats.py`: does a file named
by today's date exist in the repository's `runs/` directory? -/
def check_if_already_ran_today (runs : List RunFile) (today : String) : Bool :=
  runs.any (fun rf => pathKey rf == get_today_filename today)

/-- `save_daily_run` from `collect_stats.py`: write today's snapshot (the
`count` and `uniques` fields are the ones `update_repo_summary` later reads
back; `timestamp`, `repo` and `collected_at` are also written but never read).
Writing overwrites an existing file of the same name. -/
def save_daily_run (runs : List RunFile) (today : String) (d : CloneData) : List RunFile :=
  runs.filter (fun rf => rf.stem != today) ++
    [{ stem := today, data := some { count := some d.count, uniques := some d.uniques } }]

/-- Local state of one repository's directory: its `runs/` files and its
`summary.json` (`none` when no summary has been written yet). -/
structure RepoState where
  runs : List RunFile
  summary : Option RepoSummary
deriving DecidableEq, Repr

/-- Observable outcome of one iteration of `main`'s per-repository loop:
the resulting directory state, whether `fetch_clone_traffic` was called, and
whether `save_daily_run` was called. -/
structure StepResult where
  state : RepoState
  fetched : Bool
  saved : Bool
deriving DecidableEq, Repr

/-- The body of `main`'s per-repository loop: the run guard short-circuits
with `continue`; otherwise the traffic is fetched (its result is passed in as
`fetchResult`, the network being outside the model) and, when data is
available, `save_daily_run` and `update_repo_summary` execute. -/
def processRepo (today repo_name : String) (fetchResult : Option CloneData)
    (st : RepoState) : StepResult :=
  if check_if_already_ran_today st.runs today then
    { state := st, fetched := false, saved := false }
  else
    match fetchResult with
    | some d =>
      let runs2 := save_daily_run st.runs today d
      { state := { runs := runs2, summary := some (update_repo_summary repo_name runs2) }
        fetched := true
        saved := true }
    | none => { state := st, fetched := true, saved := false }

/-! ### Repository discovery (`fetch_ecosystem_repos`)

`re.findall(r'\[([^\]]+)\]\(https://github\.com/([^/]+)/([^/)]+)\)', content)`
scans the document left to right for non-overlapping matches.  Each character
class in the pattern is followed by the very literal it excludes (`[^\]]+`
by `]`, `[^/]+` by `/`, `[^/)]+` by `)`), so greedy matching never
backtracks: a match attempt at a position either takes the maximal run for
each class and the required literals, or fails.  `findall` below implements
exactly that. -/

/-- The literal URL part of the pattern, `https://github\.com/`. -/
def ghUrl : List Char :=
  "https://github.com/".toList

/-- Consume an exact literal from the front of `s`, or fail. -/
def dropLit : List Char → List Char → Option (List Char)
  | [], s => some s
  | _ :: _, [] => none
  | c :: cs, d :: ds => if d = c then dropLit cs ds else none

theorem dropLit_length : ∀ (lit s r : List Char), dropLit lit s = some r → r.length ≤ s.length
  | [], s, r, h => by
    simp only [dropLit, Option.some.injEq] at h
    exact h ▸ le_refl _
  | _ :: _, [], r, h => by simp [dropLit] at h
  | c :: cs, d :: ds, r, h => by
    simp only [dropLit] at h
    split at h
    · exact le_trans (dropLit_length cs ds r h) (Nat.le_succ _)
    · exact absurd h (by simp)

/-- Consume one expected literal character, or fail. -/
def expectChar (c : Char) : List Char → Option (List Char)
  | d :: ds => if d = c then some ds else none
  | [] => none

/-- Match a character class one-or-more times, greedily (`[...]+`).  Because
in the pattern each class is followed by the very literal it excludes, the
greedy maximal run is the only candidate and no backtracking occurs. -/
def takeClass (p : Char → Bool) (s : List Char) : Option (List Char × List Char) :=
  let t := s.takeWhile p
  if t.isEmpty then none else some (t, s.dropWhile p)

/-- A match attempt of the pattern at a position just after an opening `[`:
group 1 (`[^\]]+` then `]`), `(`, the URL literal, group 2 (`[^/]+` then
`/`), group 3 (`[^/)]+` then `)`).  Returns the three groups and the rest of
the input after the match, or `none` when the attempt fails. -/
def matchAfterBracket (cs : List Char) :
    Option (List Char × List Char × List Char × List Char) :=
  (takeClass (fun c => c != ']') cs).bind fun g1 =>
  (expectChar ']' g1.2).bind fun r1 =>
  (expectChar '(' r1).bind fun r2 =>
  (dropLit ghUrl r2).bind fun r3 =>
  (takeClass (fun c => c != '/') r3).bind fun g2 =>
  (expectChar '/' g2.2).bind fun r5 =>
  (takeClass (fun c => c != '/' && c != ')') r5).bind fun g3 =>
  (expectChar ')' g3.2).bind fun r7 =>
  some (g1.1, g2.1, g3.1, r7)

theorem expectChar_length {c : Char} {s r : List Char} (h : expectChar c s = some r) :
    r.length + 1 = s.length := by
  match s with
  | [] => simp [expectChar] at h
  | d :: ds =>
    simp only [expectChar] at h
    split at h
    · simp only [Option.some.injEq] at h
      rw [h, List.length_cons]
    · exact absurd h (by simp)

theorem length_dropWhile_le (p : Char → Bool) :
    ∀ l : List Char, (l.dropWhile p).length ≤ l.length := by
  intro l
  induction l with
  | nil => simp [List.dropWhile]
  | cons c cs ih =>
    rw [List.dropWhile]
    split
    · exact le_trans ih (Nat.le_succ _)
    · exact le_refl _

theorem takeClass_length {p : Char → Bool} {s : List Char} {g : List Char × List Char}
    (h : takeClass p s = some g) : g.2.length ≤ s.length := by
  simp only [takeClass] at h
  split at h
  · exact absurd h (by simp)
  · simp only [Option.some.injEq] at h
    rw [← h]
    exact length_dropWhile_le p s

theorem matchAfterBracket_length {cs t o rp rest : List Char}
    (h : matchAfterBracket cs = some (t, o, rp, rest)) : rest.length ≤ cs.length := by
  unfold matchAfterBracket at h
  simp only [Option.bind_eq_some] at h
  obtain ⟨g1, hg1, r1, hr1, r2, hr2, r3, hr3, g2, hg2, r5, hr5, g3, hg3, r7, hr7, hfin⟩ := h
  simp only [Option.some.injEq, Prod.mk.injEq] at hfin
  have e1 := takeClass_length hg1
  have e2 := expectChar_length hr1
  have e3 := expectChar_length hr2
  have e4 := dropLit_length ghUrl r2 r3 hr3
  have e5 := takeClass_length hg2
  have e6 := expectChar_length hr5
  have e7 := takeClass_length hg3
  have e8 := expectChar_length hr7
  have e9 : rest.length = r7.length := by rw [← hfin.2.2.2]
  omega

/-- `re.findall` of the link pattern: scan left to right; at each `[` attempt
a match, and on success emit the groups and continue after the match
(non-overlapping); otherwise move one character forward. -/
def findall (s : List Char) : List (List Char × List Char × List Char) :=
  match s with
  | [] => []
  | c :: cs =>
    if c = '[' then
      match h : matchAfterBracket cs with
      | some (txt, owner, repo, rest) => (txt, owner, repo) :: findall rest
      | none => findall cs
    else findall cs
termination_by s.length
decreasing_by
  · exact Nat.lt_succ_of_le (matchAfterBracket_length h)
  · simp
  · simp

/-- `match[2].split('?')[0].split('#')[0]`: the part of the captured repo
segment before the first `?`, then before the first `#`. -/
def cleanRepoName (repo : List Char) : List Char :=
  (repo.takeWhile (fun c => c != '?')).takeWhile (fun c => c != '#')

/-- `f"{owner}/{repo_name}"` for one match. -/
def fullName (owner repo : List Char) : String :=
  String.mk owner ++ "/" ++ String.mk (cleanRepoName repo)

/-- One iteration of the `for match in matches` loop of
`fetch_ecosystem_repos`: `acc.1` is the `repos` list, `acc.2` the `seen` set
(modelled as a list with membership);
`if full_name not in seen: repos.append(full_name); seen.add(full_name)`. -/
def dedupStep (acc : List String × List String) (n : String) : List String × List String :=
  if n ∈ acc.2 then acc else (acc.1 ++ [n], n :: acc.2)

/-- The parsing part of `fetch_ecosystem_repos` from `collect_stats.py`
(the HTTP download is outside the model; `content` is the downloaded text).
For each match, `full_name = f"{owner}/{repo_name}"` with the repo segment
cleaned of query/fragment, deduplicated against the `seen` set. -/
def fetch_ecosystem_repos (content : String) : List String :=
  let ms := findall content.toList
  (ms.foldl (fun acc m => dedupStep acc (fullName m.2.1 m.2.2)) ([], [])).1

/-- Modelled from the spec: "deduplicate by `(owner, repo)` preserving
first-seen order" — keep the first occurrence of each string, in order. -/
def dedupFirst : List String → List String
  | [] => []
  | x :: xs => x :: dedupFirst (xs.filter (fun y => y ≠ x))
termination_by l => l.length
decreasing_by
  exact Nat.lt_succ_of_le (List.length_filter_le _ _)

/-! ### General lemmas about `insertionSort`, `filterMap` and deduplication -/

theorem filterMap_eq_map_of_forall_some {α β : Type} {f : α → Option β} {g : α → β}
    (l : List α) (h : ∀ x ∈ l, f x = some (g x)) : l.filterMap f = l.map g := by
  induction l with
  | nil => rfl
  | cons x xs ih =>
    rw [List.filterMap_cons, List.map_cons, h x (List.mem_cons_self x xs),
      ih (fun y hy => h y (List.mem_cons_of_mem x hy))]

theorem filterMap_filter_isSome {α β : Type} (f : α → Option β) (l : List α) :
    (l.filter (fun x => (f x).isSome)).filterMap f = l.filterMap f := by
  induction l with
  | nil => rfl
  | cons x xs ih =>
    rw [List.filter_cons, List.filterMap_cons]
    cases hfx : f x with
    | none => simpa [hfx] using ih
    | some b => simpa [hfx] using ih

theorem orderedInsert_of_forall_rel {α : Type} {r : α → α → Prop} [DecidableRel r]
    {x : α} {l : List α} (h : ∀ y ∈ l, r x y) : l.orderedInsert r x = x :: l := by
  cases l with
  | nil => rfl
  | cons b m => exact List.orderedInsert_of_le r m (h b (List.mem_cons_self b m))

theorem filter_orderedInsert_pos {α : Type} {r : α → α → Prop} [DecidableRel r] [IsTrans α r]
    (p : α → Bool) {x : α} (hx : p x = true) :
    ∀ {l : List α}, l.Sorted r → (l.orderedInsert r x).filter p = (l.filter p).orderedInsert r x := by
  intro l
  induction l with
  | nil => intro _; simp [List.orderedInsert, hx]
  | cons b m ih =>
    intro hs
    have hb : ∀ y ∈ m, r b y := List.rel_of_sorted_cons hs
    have hm : m.Sorted r := hs.of_cons
    by_cases hrb : r x b
    · cases hpb : p b with
      | true => simp [List.orderedInsert, hrb, hx, hpb]
      | false =>
        have hall : ∀ y ∈ List.filter p m, r x y := fun y hy =>
          Trans.trans hrb (hb y (List.mem_filter.mp hy).1)
        simp [List.orderedInsert, hrb, hx, hpb, orderedInsert_of_forall_rel hall]
    · cases hpb : p b with
      | true => simp [List.orderedInsert, hrb, hx, hpb, ih hm]
      | false => simp [List.orderedInsert, hrb, hpb, ih hm]

theorem filter_orderedInsert_neg {α : Type} {r : α → α → Prop} [DecidableRel r]
    (p : α → Bool) {x : α} (hx : p x = false) :
    ∀ l : List α, (l.orderedInsert r x).filter p = l.filter p := by
  intro l
  induction l with
  | nil => simp [List.orderedInsert, hx]
  | cons b m ih =>
    by_cases hrb : r x b
    · simp [List.orderedInsert, hrb, hx]
    · cases hpb : p b with
      | true => simp [List.orderedInsert, hrb, hpb, ih]
      | false => simp [List.orderedInsert, hrb, hpb, ih]

theorem filter_insertionSort {α : Type} (r : α → α → Prop) [DecidableRel r]
    [IsTotal α r] [IsTrans α r] (p : α → Bool) (l : List α) :
    (List.insertionSort r l).filter p = List.insertionSort r (l.filter p) := by
  induction l with
  | nil => rfl
  | cons x xs ih =>
    cases hpx : p x with
    | true =>
      rw [List.insertionSort,
        filter_orderedInsert_pos p hpx (List.sorted_insertionSort r xs), ih]
      simp [List.insertionSort, hpx]
    | false =>
      rw [List.insertionSort, filter_orderedInsert_neg p hpx, ih]
      simp [hpx]

theorem sorted_head_bound {α : Type} {r : α → α → Prop} [IsRefl α r] {l : List α}
    (hs : l.Sorted r) (hne : l ≠ []) : ∀ y ∈ l, r (l.head hne) y := by
  cases l with
  | nil => exact absurd rfl hne
  | cons b m =>
    intro y hy
    rcases List.mem_cons.mp hy with h | h
    · rw [h, List.head_cons]; exact IsRefl.refl b
    · exact List.rel_of_sorted_cons hs y h

theorem sorted_getLast_bound {α : Type} {r : α → α → Prop} [IsRefl α r] :
    ∀ {l : List α} (hs : l.Sorted r) (hne : l ≠ []), ∀ y ∈ l, r y (l.getLast hne)
  | [], _, hne => absurd rfl hne
  | [b], _, _ => by
    intro y hy
    rw [List.mem_singleton.mp hy, List.getLast_singleton]
    exact IsRefl.refl b
  | b :: c :: m, hs, _ => by
    intro y hy
    have htail := sorted_getLast_bound (l := c :: m) hs.of_cons (by simp)
    rw [List.getLast_cons (by simp)]
    rcases List.mem_cons.mp hy with h | h
    · subst h
      have hlast : (c :: m).getLast (by simp) ∈ c :: m := List.getLast_mem _
      exact List.rel_of_sorted_cons hs _ hlast
    · exact htail y h

theorem perm_foldr_max {l₁ l₂ : List Nat} (p : l₁.Perm l₂) :
    l₁.foldr max 0 = l₂.foldr max 0 := by
  haveI : Std.Commutative (max : Nat → Nat → Nat) := ⟨Nat.max_comm⟩
  haveI : Std.Associative (max : Nat → Nat → Nat) := ⟨Nat.max_assoc⟩
  haveI : LeftCommutative (max : Nat → Nat → Nat) := max_left_commutative
  exact p.foldr_eq 0

theorem foldr_max_mem : ∀ l : List Nat, l ≠ [] → l.foldr max 0 ∈ l
  | [], h => absurd rfl h
  | [a], _ => by simp
  | a :: b :: m, _ => by
    rcases Nat.le_total a ((b :: m).foldr max 0) with h | h
    · rw [List.foldr_cons, Nat.max_eq_right h]
      exact List.mem_cons_of_mem a (foldr_max_mem (b :: m) (by simp))
    · rw [List.foldr_cons, Nat.max_eq_left h]
      exact List.mem_cons_self _ _

theorem le_foldr_max (l : List Nat) : ∀ y ∈ l, y ≤ l.foldr max 0 := by
  induction l with
  | nil => intro y hy; cases hy
  | cons a m ih =>
    intro y hy
    rcases List.mem_cons.mp hy with h | h
    · rw [h, List.foldr_cons]; exact Nat.le_max_left _ _
    · exact le_trans (ih y h) (Nat.le_max_right _ _)

theorem filter_gKey_orderedInsert (k : Nat) (x : SummaryFile) (l : List SummaryFile) :
    (l.orderedInsert gBefore x).filter (fun y => gKey y == k) =
      if gKey x == k then x :: l.filter (fun y => gKey y == k)
      else l.filter (fun y => gKey y == k) := by
  induction l with
  | nil => simp [List.orderedInsert, List.filter_cons]
  | cons b m ih =>
    by_cases hrb : gBefore x b
    · by_cases hxk : gKey x = k <;> simp [List.orderedInsert, hrb, List.filter_cons, hxk]
    · have hlt : gKey x < gKey b := Nat.lt_of_not_le hrb
      by_cases hxk : gKey x = k
      · have hbk : gKey b ≠ k := by omega
        simp [List.orderedInsert, hrb, List.filter_cons, hxk, hbk, ih]
      · by_cases hbk : gKey b = k <;>
          simp [List.orderedInsert, hrb, List.filter_cons, hxk, hbk, ih]

theorem filter_gKey_insertionSort (k : Nat) (l : List SummaryFile) :
    (List.insertionSort gBefore l).filter (fun y => gKey y == k) =
      l.filter (fun y => gKey y == k) := by
  induction l with
  | nil => rfl
  | cons x xs ih =>
    rw [List.insertionSort, filter_gKey_orderedInsert, List.filter_cons]
    by_cases hxk : gKey x = k <;> simp [hxk, ih]

/-- The `repos` / `seen` loop of `fetch_ecosystem_repos`, abstracted over the
remaining names and the current `seen` set. -/
def dedupSeen : List String → List String → List String
  | [], _ => []
  | x :: xs, seen => if x ∈ seen then dedupSeen xs seen else x :: dedupSeen xs (x :: seen)

theorem foldl_dedup (names : List String) :
    ∀ acc seen : List String,
      (names.foldl dedupStep (acc, seen)).1 = acc ++ dedupSeen names seen := by
  induction names with
  | nil => intro acc seen; simp [dedupSeen]
  | cons n ns ih =>
    intro acc seen
    rw [List.foldl_cons, dedupStep]
    dsimp only
    by_cases h : n ∈ seen
    · rw [if_pos h, ih, dedupSeen, if_pos h]
    · rw [if_neg h, ih, dedupSeen, if_neg h, List.append_assoc, List.singleton_append]

theorem dedupSeen_eq_dedupFirst :
    ∀ (names seen : List String),
      dedupSeen names seen = dedupFirst (names.filter (fun y => y ∉ seen))
  | [], seen => by simp [dedupSeen, dedupFirst]
  | x :: xs, seen => by
    rw [dedupSeen, List.filter_cons]
    by_cases h : x ∈ seen
    · rw [if_pos h, if_neg (by simp [h]), dedupSeen_eq_dedupFirst xs seen]
    · rw [if_neg h, if_pos (by simp [h]), dedupFirst,
        dedupSeen_eq_dedupFirst xs (x :: seen), List.filter_filter]
      congr 1
      refine congrArg dedupFirst (List.filter_congr ?_)
      intro a _
      by_cases h1 : a = x <;> by_cases h2 : a ∈ seen <;> simp [h1, h2]

theorem mem_dedupFirst : ∀ (l : List String) (a : String), a ∈ dedupFirst l ↔ a ∈ l
  | [], a => by simp [dedupFirst]
  | x :: xs, a => by
    rw [dedupFirst, List.mem_cons, List.mem_cons,
      mem_dedupFirst (xs.filter (fun y => y ≠ x)) a]
    by_cases h : a = x
    · simp [h]
    · simp [h]
termination_by l => l.length
decreasing_by
  exact Nat.lt_succ_of_le (List.length_filter_le _ _)

theorem dedupFirst_nodup : ∀ l : List String, (dedupFirst l).Nodup
  | [] => by rw [dedupFirst]; exact List.nodup_nil
  | x :: xs => by
    rw [dedupFirst]
    refine List.Nodup.cons ?_ (dedupFirst_nodup (xs.filter (fun y => y ≠ x)))
    intro hmem
    have := (mem_dedupFirst _ x).mp hmem
    have := (List.mem_filter.mp this).2
    simp at this
termination_by l => l.length
decreasing_by
  exact Nat.lt_succ_of_le (List.length_filter_le _ _)

/-- The `daily_history` record of a run file that parsed successfully. -/
def dayOfValid (rf : RunFile) : DayEntry :=
  { date := rf.stem
    clones := ((rf.data.getD { count := none, uniques := none }).count).getD 0
    unique_cloners := ((rf.data.getD { count := none, uniques := none }).uniques).getD 0 }

theorem runEntry_eq_some {rf : RunFile} (h : rf.data.isSome) :
    runEntry rf = some (dayOfValid rf) := by
  cases hd : rf.data with
  | none => rw [hd] at h; cases h
  | some d => simp [runEntry, dayOfValid, hd]

/-- "Filename ordering" on snapshot dates: the order of the files
`d ++ ".json"` that `sorted(runs_dir.glob("*.json"))` uses. -/
def dateKeyLE (d e : String) : Prop :=
  d ++ ".json" ≤ e ++ ".json"

/-- A snapshot file for date `e.1` with fields `count = e.2.1` and
`uniques = e.2.2`, as written by `save_daily_run` and read back by
`update_repo_summary`. -/
def snapshotFile (e : String × Nat × Nat) : RunFile :=
  { stem := e.1, data := some { count := some e.2.1, uniques := some e.2.2 } }

/-! ### Claim theorems -/

/-- C6: `fetch_clone_traffic` returns the last entry of a non-empty clone
series as `{timestamp, count, uniques}`; it returns `None` when the API
reports no clone entries at all; and for every raised client error
(permission-denied 403, not-found 404, any other `GithubException`, or any
other exception) it returns `None` rather than propagating — it is a total
function into `Option CloneData`, so it never fails past its boundary. -/
theorem fetch_clone_traffic_spec :
    (∀ (clones : List CloneEntry) (e : CloneEntry), clones.getLast? = some e →
        fetch_clone_traffic (.ok clones) =
          some { timestamp := e.timestamp, count := e.count, uniques := e.uniques })
    ∧ fetch_clone_traffic (.ok []) = none
    ∧ (∀ status, fetch_clone_traffic (.githubError status) = none)
    ∧ fetch_clone_traffic .otherError = none := by
  refine ⟨?_, rfl, fun _ => rfl, rfl⟩
  intro clones e h
  simp [fetch_clone_traffic, h]

/-- Witness for C6 at a concrete two-day series: the later entry is taken. -/
theorem fetch_clone_traffic_spec_witness :
    fetch_clone_traffic (.ok
        [{ timestamp := "2025-01-01T00:00:00+00:00", count := 5, uniques := 2 },
         { timestamp := "2025-01-02T00:00:00+00:00", count := 7, uniques := 3 }]) =
      some { timestamp := "2025-01-02T00:00:00+00:00", count := 7, uniques := 3 } :=
  fetch_clone_traffic_spec.1 _
    { timestamp := "2025-01-02T00:00:00+00:00", count := 7, uniques := 3 } rfl

/-- C7 counterexample: the claim says that whenever at least one of the two
variables is set, the token is returned and no exit occurs.  But with
`TRAFFIC_TRACKER` set to the empty string and `GITHUB_TOKEN` unset,
`token = '' or None` is falsy and `sys.exit(1)` runs: a set variable, yet a
non-zero exit and no token. -/
theorem get_github_token_counterexample :
    get_github_token (some "") none = .error 1 := rfl

/-- C7 amended: `get_github_token` reads the token from `TRAFFIC_TRACKER` or
`GITHUB_TOKEN` (either may supply it); whenever both are unset *or set to the
empty string* the process exits with code 1 (non-zero), and whenever at least
one is set to a non-empty string that token is returned and no exit occurs
(a non-empty `TRAFFIC_TRACKER` takes precedence). -/
theorem get_github_token_amended (tt gt : Option String) :
    (tt.getD "" = "" → gt.getD "" = "" → get_github_token tt gt = .error 1)
    ∧ (∀ s, tt = some s → s ≠ "" → get_github_token tt gt = .ok s)
    ∧ (∀ s, tt.getD "" = "" → gt = some s → s ≠ "" → get_github_token tt gt = .ok s) := by
  refine ⟨?_, ?_, ?_⟩
  · intro h1 h2
    cases tt with
    | none =>
      cases gt with
      | none => rfl
      | some g =>
        have hg : g = "" := by simpa using h2
        simp [get_github_token, pyOrStr, hg]
    | some t =>
      have ht : t = "" := by simpa using h1
      cases gt with
      | none => simp [get_github_token, pyOrStr, ht]
      | some g =>
        have hg : g = "" := by simpa using h2
        simp [get_github_token, pyOrStr, ht, hg]
  · intro s hts hs
    subst hts
    simp [get_github_token, pyOrStr, hs]
  · intro s ht hgs hs
    subst hgs
    cases tt with
    | none => simp [get_github_token, pyOrStr, hs]
    | some t =>
      have ht' : t = "" := by simpa using ht
      simp [get_github_token, pyOrStr, ht', hs]

/-- Witness for the amended C7 at concrete environments. -/
theorem get_github_token_amended_witness :
    get_github_token (some "tok") none = .ok "tok"
    ∧ get_github_token none (some "tok2") = .ok "tok2"
    ∧ get_github_token none none = .error 1 :=
  ⟨(get_github_token_amended (some "tok") none).2.1 "tok" rfl (by decide),
   (get_github_token_amended none (some "tok2")).2.2 "tok2" rfl rfl (by decide),
   (get_github_token_amended none none).1 rfl rfl⟩

/-- C9: when the run-history directory is absent (empty list) or contains no
parsable snapshot file, `update_repo_summary` is a total function (the
`max(...) if ... else 0` guard and the `all_runs[0] if all_runs else None`
guards are modelled by the same conditionals) and the summary has
`total_days_tracked = 0`, `total_clones = 0`,
`max_unique_cloners_in_window = 0`, `first_tracked = last_tracked = None`
and an empty `daily_history`. -/
theorem update_repo_summary_empty (name : String) (files : List RunFile)
    (h : ∀ rf ∈ files, rf.data = none) :
    update_repo_summary name files =
      { repo_name := name, total_days_tracked := 0, total_clones := 0,
        max_unique_cloners_in_window := 0, first_tracked := none,
        last_tracked := none, daily_history := [] } := by
  have hruns : all_runs files = [] := by
    rw [all_runs, List.filterMap_eq_nil_iff]
    intro rf hrf
    have hmem : rf ∈ files := (List.mem_insertionSort runLE).mp hrf
    simp [runEntry, h rf hmem]
  simp [update_repo_summary, hruns]

/-- Witness for C9: a directory holding one corrupt file and nothing else. -/
theorem update_repo_summary_empty_witness :
    update_repo_summary "o/r" [{ stem := "2024-01-01", data := none }] =
      { repo_name := "o/r", total_days_tracked := 0, total_clones := 0,
        max_unique_cloners_in_window := 0, first_tracked := none,
        last_tracked := none, daily_history := [] } :=
  update_repo_summary_empty "o/r" [{ stem := "2024-01-01", data := none }]
    (fun rf hrf => by rw [List.mem_singleton.mp hrf])

/-- C4: `update_repo_summary` never raises on a corrupt file (the
`except json.JSONDecodeError` branch only logs and continues), and the
summary it computes over a directory with unparseable files equals the
summary over the parsable files alone — a corrupt file contributes to none
of `total_clones`, `total_days_tracked`, the uniques aggregate or
`daily_history`.  In particular, with one unparseable file among `n` valid
ones, the written summary is exactly the one computed from the `n` valid
files. -/
theorem update_repo_summary_skips_corrupt (name : String) (files : List RunFile) :
    update_repo_summary name files =
      update_repo_summary name (files.filter (fun rf => rf.data.isSome)) := by
  have hpred : ∀ l : List RunFile,
      l.filter (fun rf => rf.data.isSome) = l.filter (fun rf => (runEntry rf).isSome) := by
    intro l
    refine List.filter_congr ?_
    intro rf _
    cases hd : rf.data <;> simp [runEntry, hd]
  have hruns : all_runs (files.filter (fun rf => rf.data.isSome)) = all_runs files := by
    rw [all_runs, all_runs, ← filter_insertionSort runLE (fun rf => rf.data.isSome) files,
      hpred, filterMap_filter_isSome]
  simp only [update_repo_summary, hruns]

/-- C10: every global summary written by `update_global_summary` is
internally consistent: `total_repos_tracked` equals the length of its
`repositories` list, and `total_clones_all_repos` equals the sum over that
list of each entry's `total_clones` field (0 when absent). -/
theorem update_global_summary_consistent (dirs : List (Option SummaryFile)) :
    (update_global_summary dirs).total_repos_tracked =
        (update_global_summary dirs).repositories.length
    ∧ (update_global_summary dirs).total_clones_all_repos =
        ((update_global_summary dirs).repositories.map
          (fun r => r.total_clones.getD 0)).sum := by
  have hperm : (List.insertionSort gBefore (dirs.filterMap id)).Perm (dirs.filterMap id) :=
    List.perm_insertionSort gBefore (dirs.filterMap id)
  constructor
  · simp [update_global_summary]
  · simp only [update_global_summary]
    exact ((hperm.map gKey).sum_eq).symm

/-- C2: for every collection of `R` parsable summary files with totals
`t1..tR` (each `ti` read as `get('total_clones', 0)`), the written global
summary has `total_clones_all_repos = Σti`, `total_repos_tracked = R`, and
its `repositories` list is a permutation of the inputs sorted descending by
total clones (`Sorted gBefore`), stably: for every key value the entries
with that total appear in their original relative order. -/
theorem update_global_summary_fold (summaries : List SummaryFile) :
    (update_global_summary (summaries.map some)).total_clones_all_repos =
        (summaries.map gKey).sum
    ∧ (update_global_summary (summaries.map some)).total_repos_tracked = summaries.length
    ∧ (update_global_summary (summaries.map some)).repositories.Sorted gBefore
    ∧ (update_global_summary (summaries.map some)).repositories.Perm summaries
    ∧ ∀ k : Nat,
        (update_global_summary (summaries.map some)).repositories.filter
            (fun s => gKey s == k) =
          summaries.filter (fun s => gKey s == k) := by
  have hid : (summaries.map some).filterMap id = summaries := by
    rw [List.filterMap_map]
    simpa using List.filterMap_some summaries
  refine ⟨?_, ?_, ?_, ?_, ?_⟩
  · simp only [update_global_summary, hid]
  · simp only [update_global_summary, hid]
  · simp only [update_global_summary, hid]
    exact List.sorted_insertionSort gBefore summaries
  · simp only [update_global_summary, hid]
    exact List.perm_insertionSort gBefore summaries
  · intro k
    simp only [update_global_summary, hid]
    exact filter_gKey_insertionSort k summaries

/-- Replace absent `count`/`uniques` fields by an explicit `0`, the default
`update_repo_summary` supplies via `run_data.get(..., 0)`. -/
def fillDefaults (rf : RunFile) : RunFile :=
  match rf.data with
  | some d =>
    { stem := rf.stem
      data := some { count := some (d.count.getD 0), uniques := some (d.uniques.getD 0) } }
  | none => rf

theorem fillDefaults_stem (rf : RunFile) : (fillDefaults rf).stem = rf.stem := by
  cases hd : rf.data <;> simp [fillDefaults, hd]

theorem runEntry_fillDefaults (rf : RunFile) : runEntry (fillDefaults rf) = runEntry rf := by
  cases hd : rf.data <;> simp [fillDefaults, runEntry, hd]

/-- C8: a snapshot that parses but lacks `count` or `uniques` is treated as
having that field equal to zero.  First conjunct: replacing every absent
field by an explicit `0` leaves the computed summary unchanged.  The other
two conjuncts exhibit the per-record effect: a record without `count`
contributes `0` to `total_clones` and a `daily_history` entry with
`clones = 0`; a record without `uniques` contributes `0` to the uniques
aggregate and an entry with `unique_cloners = 0`. -/
theorem update_repo_summary_missing_fields (name : String) :
    (∀ files : List RunFile,
      update_repo_summary name (files.map fillDefaults) = update_repo_summary name files)
    ∧ (∀ (s : String) (u : Option Nat),
        (update_repo_summary name
            [{ stem := s, data := some { count := none, uniques := u } }]).total_clones = 0
        ∧ (update_repo_summary name
            [{ stem := s, data := some { count := none, uniques := u } }]).daily_history
          = [{ date := s, clones := 0, unique_cloners := u.getD 0 }])
    ∧ (∀ (s : String) (c : Option Nat),
        (update_repo_summary name
            [{ stem := s, data := some { count := c, uniques := none } }]).max_unique_cloners_in_window = 0
        ∧ (update_repo_summary name
            [{ stem := s, data := some { count := c, uniques := none } }]).daily_history
          = [{ date := s, clones := c.getD 0, unique_cloners := 0 }]) := by
  refine ⟨?_, ?_, ?_⟩
  · intro files
    have hsort : List.insertionSort runLE (files.map fillDefaults) =
        (List.insertionSort runLE files).map fillDefaults := by
      refine (List.map_insertionSort runLE runLE fillDefaults files ?_).symm
      intro a _ b _
      simp [runLE, pathKey, fillDefaults_stem]
    have hruns : all_runs (files.map fillDefaults) = all_runs files := by
      rw [all_runs, all_runs, hsort, List.filterMap_map]
      refine List.filterMap_congr ?_
      intro rf _
      exact runEntry_fillDefaults rf
    simp only [update_repo_summary, hruns]
  · intro s u
    constructor <;>
      simp [update_repo_summary, all_runs, List.insertionSort, runEntry]
  · intro s c
    constructor <;>
      simp [update_repo_summary, all_runs, List.insertionSort, runEntry]

/-- C5: the run guard makes the daily collection idempotent per repository
and UTC date.  First conjunct: when a snapshot named by today's date already
exists, the loop body short-circuits — no fetch, no persist, and the whole
directory state (runs and summary file alike) is unchanged, so in particular
the summary is unchanged except possibly its (unmodelled) `last_updated`
timestamp.  Second conjunct: after any first run that collected data,
today's snapshot exists, so a second run on the same date short-circuits. -/
theorem processRepo_idempotent (today repo_name : String) (fetch : Option CloneData)
    (st : RepoState) :
    (check_if_already_ran_today st.runs today = true →
        processRepo today repo_name fetch st = { state := st, fetched := false, saved := false })
    ∧ ∀ d : CloneData,
        check_if_already_ran_today
          ((processRepo today repo_name (some d) st).state).runs today = true := by
  constructor
  · intro h
    simp [processRepo, h]
  · intro d
    by_cases h : check_if_already_ran_today st.runs today
    · simp [processRepo, h]
    · simp only [processRepo, h, Bool.false_eq_true, if_neg, ite_false]
      simp [check_if_already_ran_today, save_daily_run, pathKey, get_today_filename]

/-- Witness for C5: a concrete second run on 2026-10-12 leaves the state
untouched and performs no fetch and no save. -/
theorem processRepo_idempotent_witness :
    processRepo "2026-10-12" "o/r" (some { timestamp := "t", count := 9, uniques := 4 })
        { runs := [{ stem := "2026-10-12", data := some { count := some 1, uniques := some 1 } }]
          summary := none } =
      { state :=
          { runs := [{ stem := "2026-10-12", data := some { count := some 1, uniques := some 1 } }]
            summary := none }
        fetched := false
        saved := false } :=
  (processRepo_idempotent "2026-10-12" "o/r"
      (some { timestamp := "t", count := 9, uniques := 4 })
      { runs := [{ stem := "2026-10-12", data := some { count := some 1, uniques := some 1 } }]
        summary := none }).1 (by decide)

/-- C3: `fetch_ecosystem_repos` returns exactly the distinct `owner/repo`
strings of the document's markdown links to `github.com/<owner>/<repo>`
(the matches of the source regex, in document order), with trailing
query/fragment stripped from the repo segment before deduplication, ordered
by first occurrence: it equals `dedupFirst` (keep the first occurrence of
each name, in order) of the cleaned match list, is duplicate-free, and
contains exactly the cleaned names of the matches. -/
theorem fetch_ecosystem_repos_spec (content : String) :
    fetch_ecosystem_repos content =
        dedupFirst ((findall content.toList).map (fun m => fullName m.2.1 m.2.2))
    ∧ (fetch_ecosystem_repos content).Nodup
    ∧ ∀ s, s ∈ fetch_ecosystem_repos content ↔
        s ∈ (findall content.toList).map (fun m => fullName m.2.1 m.2.2) := by
  have hmain : fetch_ecosystem_repos content =
      dedupFirst ((findall content.toList).map (fun m => fullName m.2.1 m.2.2)) := by
    rw [fetch_ecosystem_repos]
    rw [← List.foldl_map (fun m => fullName m.2.1 m.2.2) dedupStep (findall content.toList)
        (([] : List String), ([] : List String)),
      foldl_dedup, List.nil_append, dedupSeen_eq_dedupFirst]
    congr 1
    refine List.filter_eq_self.mpr ?_
    intro a _
    simp
  refine ⟨hmain, ?_, ?_⟩
  · rw [hmain]
    exact dedupFirst_nodup _
  · intro s
    rw [hmain]
    exact mem_dedupFirst _ s

/-- C1: for parsable snapshot files for dates `D1..Dn` (n ≥ 1) with counts
`c1..cn` and uniques `u1..un`, the summary written by `update_repo_summary`
has `total_clones = Σci`, `total_days_tracked = n`,
`max_unique_cloners_in_window = max(ui)` (stated both as the fold of `max`
over the `ui` and by the maximum characterization: it is one of the `ui`
and an upper bound of all of them), and `first_tracked` / `last_tracked`
are the minimum / maximum date under filename ordering (`dateKeyLE`). -/
theorem update_repo_summary_correct (name : String)
    (entries : List (String × Nat × Nat)) (hne : entries ≠ []) :
    (update_repo_summary name (entries.map snapshotFile)).total_clones
        = (entries.map (fun e => e.2.1)).sum
    ∧ (update_repo_summary name (entries.map snapshotFile)).total_days_tracked
        = entries.length
    ∧ (update_repo_summary name (entries.map snapshotFile)).max_unique_cloners_in_window
        = (entries.map (fun e => e.2.2)).foldr max 0
    ∧ (update_repo_summary name (entries.map snapshotFile)).max_unique_cloners_in_window
        ∈ entries.map (fun e => e.2.2)
    ∧ (∀ u ∈ entries.map (fun e => e.2.2),
        u ≤ (update_repo_summary name (entries.map snapshotFile)).max_unique_cloners_in_window)
    ∧ ∃ d1 d2,
        (update_repo_summary name (entries.map snapshotFile)).first_tracked = some d1
        ∧ (update_repo_summary name (entries.map snapshotFile)).last_tracked = some d2
        ∧ d1 ∈ entries.map (fun e => e.1)
        ∧ d2 ∈ entries.map (fun e => e.1)
        ∧ ∀ s ∈ entries.map (fun e => e.1), dateKeyLE d1 s ∧ dateKeyLE s d2 := by
  have hvalidL : ∀ rf ∈ List.insertionSort runLE (entries.map snapshotFile),
      runEntry rf = some (dayOfValid rf) := by
    intro rf hrf
    have hmem : rf ∈ entries.map snapshotFile := (List.mem_insertionSort runLE).mp hrf
    obtain ⟨e, -, rfl⟩ := List.mem_map.mp hmem
    simp [snapshotFile, runEntry, dayOfValid]
  have hruns : all_runs (entries.map snapshotFile) =
      (List.insertionSort runLE (entries.map snapshotFile)).map dayOfValid := by
    rw [all_runs]
    exact filterMap_eq_map_of_forall_some _ hvalidL
  have hperm : (List.insertionSort runLE (entries.map snapshotFile)).Perm
      (entries.map snapshotFile) := List.perm_insertionSort runLE _
  have hcompose : dayOfValid ∘ snapshotFile =
      (fun e : String × Nat × Nat => DayEntry.mk e.1 e.2.1 e.2.2) := by
    funext e
    simp [snapshotFile, dayOfValid]
  have hpermE : (all_runs (entries.map snapshotFile)).Perm
      (entries.map (fun e => DayEntry.mk e.1 e.2.1 e.2.2)) := by
    rw [hruns]
    have h1 := hperm.map dayOfValid
    rw [List.map_map, hcompose] at h1
    exact h1
  have hmax : (update_repo_summary name (entries.map snapshotFile)).max_unique_cloners_in_window
      = (entries.map (fun e => e.2.2)).foldr max 0 := by
    simp only [update_repo_summary]
    rw [perm_foldr_max (hpermE.map (fun e => e.unique_cloners)), List.map_map]
    rfl
  have husne : entries.map (fun e => e.2.2) ≠ [] := by
    simpa using hne
  refine ⟨?_, ?_, hmax, ?_, ?_, ?_⟩
  · simp only [update_repo_summary]
    rw [(hpermE.map (fun e => e.clones)).sum_eq, List.map_map]
    rfl
  · simp only [update_repo_summary]
    rw [hpermE.length_eq, List.length_map]
  · rw [hmax]
    exact foldr_max_mem _ husne
  · intro u hu
    rw [hmax]
    exact le_foldr_max _ u hu
  · have hsorted := List.sorted_insertionSort runLE (entries.map snapshotFile)
    have hLne : List.insertionSort runLE (entries.map snapshotFile) ≠ [] := by
      intro h0
      apply hne
      have hlen := congrArg List.length h0
      rw [List.length_insertionSort, List.length_map] at hlen
      exact List.eq_nil_of_length_eq_zero hlen
    have hfirst : (update_repo_summary name (entries.map snapshotFile)).first_tracked
        = some ((List.insertionSort runLE (entries.map snapshotFile)).head hLne).stem := by
      simp only [update_repo_summary]
      rw [hruns, List.head?_map, List.head?_eq_head hLne]
      rfl
    have hlast : (update_repo_summary name (entries.map snapshotFile)).last_tracked
        = some ((List.insertionSort runLE (entries.map snapshotFile)).getLast hLne).stem := by
      simp only [update_repo_summary]
      rw [hruns, List.getLast?_map, List.getLast?_eq_getLast _ hLne]
      rfl
    refine ⟨_, _, hfirst, hlast, ?_, ?_, ?_⟩
    · have hmem : (List.insertionSort runLE (entries.map snapshotFile)).head hLne
          ∈ entries.map snapshotFile :=
        (List.mem_insertionSort runLE).mp (List.head_mem hLne)
      obtain ⟨e, he, heq⟩ := List.mem_map.mp hmem
      exact List.mem_map.mpr ⟨e, he, by rw [← heq]; rfl⟩
    · have hmem : (List.insertionSort runLE (entries.map snapshotFile)).getLast hLne
          ∈ entries.map snapshotFile :=
        (List.mem_insertionSort runLE).mp (List.getLast_mem hLne)
      obtain ⟨e, he, heq⟩ := List.mem_map.mp hmem
      exact List.mem_map.mpr ⟨e, he, by rw [← heq]; rfl⟩
    · intro s hs
      obtain ⟨e, he, rfl⟩ := List.mem_map.mp hs
      have hmemL : snapshotFile e ∈ List.insertionSort runLE (entries.map snapshotFile) :=
        (List.mem_insertionSort runLE).mpr (List.mem_map.mpr ⟨e, he, rfl⟩)
      exact ⟨sorted_head_bound hsorted hLne _ hmemL,
        sorted_getLast_bound hsorted hLne _ hmemL⟩

/-- Witness for C1 at two concrete snapshot files. -/
theorem update_repo_summary_correct_witness :
    (update_repo_summary "o/r"
        ([("2024-01-02", 3, 1), ("2024-01-01", 5, 2)].map snapshotFile)).total_clones = 8
    ∧ (update_repo_summary "o/r"
        ([("2024-01-02", 3, 1), ("2024-01-01", 5, 2)].map snapshotFile)).total_days_tracked = 2
    ∧ ∃ d1 d2,
        (update_repo_summary "o/r"
            ([("2024-01-02", 3, 1), ("2024-01-01", 5, 2)].map snapshotFile)).first_tracked
          = some d1
        ∧ (update_repo_summary "o/r"
            ([("2024-01-02", 3, 1), ("2024-01-01", 5, 2)].map snapshotFile)).last_tracked
          = some d2
        ∧ d1 ∈ ["2024-01-02", "2024-01-01"]
        ∧ d2 ∈ ["2024-01-02", "2024-01-01"]
        ∧ ∀ s ∈ ["2024-01-02", "2024-01-01"], dateKeyLE d1 s ∧ dateKeyLE s d2 := by
  have h := update_repo_summary_correct "o/r" [("2024-01-02", 3, 1), ("2024-01-01", 5, 2)]
    (by decide)
  exact ⟨by rw [h.1]; rfl, by rw [h.2.1]; rfl, by simpa using h.2.2.2.2.2⟩
